import Mathlib

/-!
Verification of the binary Valve-Data-Format (VDF) decoder of
`src/backend/src/vendor/vdfr.rs` and the shortcut-id helper of
`src/backend/src/steam.rs`.

The Rust code parses byte slices with nom "complete" combinators.  The
embedding models a byte slice as `List Nat` (each entry `< 256`), a nom
`IResult<&[u8], T>` as `Except NErr (List Nat × T)` (the `ok` pair is
`(remaining input, parsed value)`), and a Rust `String` as the list of its
unicode scalar values.  Recursive parsers take an explicit fuel argument;
the public entry points instantiate it with `input length + 1`, which is
more fuel than the loops can ever consume because every iteration consumes
at least one byte of input.
-/

namespace VdfrModel

/-- A Rust `String`, as its list of unicode scalar values. -/
abbrev RStr := List Nat

/-- The nom `ErrorKind`s that the code can produce (`Eof` from fixed-width
readers, `take` and the string-pool bounds check; `TakeUntil` from
`take_until`; `Char` from the UTF-8 validity check and the unknown-tag arm;
`Many0` from `many0`'s no-progress check).  `Fuel` is an artifact of the
embedding's fuel counters and is unreachable from the public entry points. -/
inductive NomErrorKind where
  | Eof
  | TakeUntil
  | Char
  | Many0
  | Fuel
deriving DecidableEq, Repr

/-- A nom `Error<&[u8]>`: an error code plus the input position it carries. -/
structure NErr where
  kind : NomErrorKind
  rest : List Nat
deriving DecidableEq, Repr

/-- A nom `IResult<&[u8], T>`. -/
abbrev NResult (α : Type) := Except NErr (List Nat × α)

/-- `VdfrError` of vdfr.rs.  `ReadError` carries an io error and `NomError`
a rendered string in Rust; the string is a formatting of the nom error code
(plus an input excerpt), so `NomError` here keeps the code itself. -/
inductive VdfrError where
  | InvalidType (t : Nat)
  | ReadError
  | UnknownMagic (v : Nat)
  | NomError (kind : NomErrorKind)
  | InvalidStringIndex (idx total : Nat)
deriving DecidableEq, Repr

/-- `throw_error` of vdfr.rs: every nom error is rendered into
`VdfrError::NomError`. -/
def throw_error (e : NErr) : VdfrError := .NomError e.kind

/-- nom `le_u8` (complete): one byte, or `Eof` on empty input. -/
def le_u8 : List Nat → NResult Nat
  | [] => .error ⟨.Eof, []⟩
  | b :: rest => .ok (rest, b)

/-- nom `le_u16` (complete). -/
def le_u16 : List Nat → NResult Nat
  | b0 :: b1 :: rest => .ok (rest, b0 + 256 * b1)
  | data => .error ⟨.Eof, data⟩

/-- nom `be_u16` (complete). -/
def be_u16 : List Nat → NResult Nat
  | b0 :: b1 :: rest => .ok (rest, 256 * b0 + b1)
  | data => .error ⟨.Eof, data⟩

/-- nom `le_u32` (complete). -/
def le_u32 : List Nat → NResult Nat
  | b0 :: b1 :: b2 :: b3 :: rest =>
      .ok (rest, b0 + 256 * b1 + 65536 * b2 + 16777216 * b3)
  | data => .error ⟨.Eof, data⟩

/-- nom `le_u64` (complete). -/
def le_u64 : List Nat → NResult Nat
  | b0 :: b1 :: b2 :: b3 :: b4 :: b5 :: b6 :: b7 :: rest =>
      .ok (rest, b0 + 256 * b1 + 65536 * b2 + 16777216 * b3 +
        4294967296 * b4 + 1099511627776 * b5 + 281474976710656 * b6 +
        72057594037927936 * b7)
  | data => .error ⟨.Eof, data⟩

/-- Two's-complement reading of an unsigned 32-bit value as `i32`. -/
def toI32 (n : Nat) : Int :=
  if n < 2147483648 then (n : Int) else (n : Int) - 4294967296

/-- Two's-complement reading of an unsigned 64-bit value as `i64`. -/
def toI64 (n : Nat) : Int :=
  if n < 9223372036854775808 then (n : Int) else (n : Int) - 18446744073709551616

/-- nom `le_i32` (complete). -/
def le_i32 (data : List Nat) : NResult Int :=
  match le_u32 data with
  | .error e => .error e
  | .ok (rest, n) => .ok (rest, toI32 n)

/-- nom `le_i64` (complete). -/
def le_i64 (data : List Nat) : NResult Int :=
  match le_u64 data with
  | .error e => .error e
  | .ok (rest, n) => .ok (rest, toI64 n)

/-- nom `le_f32` (complete).  The f32 is kept as its raw IEEE-754 bit
pattern: the program stores the value verbatim and never computes with it. -/
def le_f32 (data : List Nat) : NResult Nat :=
  le_u32 data

/-- Split off the first `n` elements; `none` when fewer are available. -/
def splitN : Nat → List Nat → Option (List Nat × List Nat)
  | 0, data => some (data, [])
  | _ + 1, [] => none
  | n + 1, b :: rest =>
      match splitN n rest with
      | none => none
      | some (remaining, taken) => some (remaining, b :: taken)

/-- nom `take(n)` (complete): exactly `n` bytes, or `Eof`. -/
def takeN (n : Nat) (data : List Nat) : NResult (List Nat) :=
  match splitN n data with
  | some (remaining, taken) => .ok (remaining, taken)
  | none => .error ⟨.Eof, data⟩

/-- Index of the first zero byte. -/
def findNulIdx : List Nat → Option Nat
  | [] => none
  | b :: rest =>
      if b = 0 then some 0
      else
        match findNulIdx rest with
        | some i => some (i + 1)
        | none => none

/-- Index of the first occurrence of two consecutive zero bytes, at any
byte offset. -/
def findNul2Idx : List Nat → Option Nat
  | 0 :: 0 :: _ => some 0
  | _ :: rest =>
      match findNul2Idx rest with
      | some i => some (i + 1)
      | none => none
  | [] => none

/-- nom `take_until("\0")` (complete): the prefix before the first zero
byte, leaving the zero byte in the remaining input; `TakeUntil` when no
zero byte exists. -/
def take_until0 (input : List Nat) : NResult (List Nat) :=
  match findNulIdx input with
  | some i => .ok (input.drop i, input.take i)
  | none => .error ⟨.TakeUntil, input⟩

/-- nom `take_until("\0\0")` (complete): the prefix before the first pair
of consecutive zero bytes. -/
def take_until00 (input : List Nat) : NResult (List Nat) :=
  match findNul2Idx input with
  | some i => .ok (input.drop i, input.take i)
  | none => .error ⟨.TakeUntil, input⟩

/-- Strict UTF-8 decoding, as `std::str::from_utf8`: `none` on any invalid
sequence (continuation errors, overlongs, surrogates, values past U+10FFFF).
The fuel is instantiated with the list length; each step consumes at least
one byte. -/
def utf8DecodeGo : Nat → List Nat → Option (List Nat)
  | _, [] => some []
  | 0, _ :: _ => none
  | fuel + 1, b :: rest =>
      if b < 128 then
        match utf8DecodeGo fuel rest with
        | some s => some (b :: s)
        | none => none
      else if 194 ≤ b ∧ b ≤ 223 then
        match rest with
        | b1 :: rest1 =>
            if 128 ≤ b1 ∧ b1 ≤ 191 then
              match utf8DecodeGo fuel rest1 with
              | some s => some (((b - 192) * 64 + (b1 - 128)) :: s)
              | none => none
            else none
        | [] => none
      else if 224 ≤ b ∧ b ≤ 239 then
        match rest with
        | b1 :: b2 :: rest2 =>
            let lo1 := if b = 224 then 160 else 128
            let hi1 := if b = 237 then 159 else 191
            if (lo1 ≤ b1 ∧ b1 ≤ hi1) ∧ (128 ≤ b2 ∧ b2 ≤ 191) then
              match utf8DecodeGo fuel rest2 with
              | some s =>
                  some (((b - 224) * 4096 + (b1 - 128) * 64 + (b2 - 128)) :: s)
              | none => none
            else none
        | _ => none
      else if 240 ≤ b ∧ b ≤ 244 then
        match rest with
        | b1 :: b2 :: b3 :: rest3 =>
            let lo1 := if b = 240 then 144 else 128
            let hi1 := if b = 244 then 143 else 191
            if (lo1 ≤ b1 ∧ b1 ≤ hi1) ∧ (128 ≤ b2 ∧ b2 ≤ 191) ∧
                (128 ≤ b3 ∧ b3 ≤ 191) then
              match utf8DecodeGo fuel rest3 with
              | some s =>
                  some (((b - 240) * 262144 + (b1 - 128) * 4096 +
                    (b2 - 128) * 64 + (b3 - 128)) :: s)
              | none => none
            else none
        | _ => none
      else none

/-- Strict UTF-8 decoding of a whole byte list. -/
def utf8Decode (l : List Nat) : Option (List Nat) :=
  utf8DecodeGo l.length l

/-- `parse_utf8` of vdfr.rs: bytes up to the first NUL, the NUL consumed,
the prefix decoded as strict UTF-8; invalid UTF-8 is a `Char` error carried
at the position after the NUL. -/
def parse_utf8 (input : List Nat) : NResult RStr :=
  match take_until0 input with
  | .error e => .error e
  | .ok (rest, buf) =>
      match le_u8 rest with
      | .error e => .error e
      | .ok (rest2, _) =>
          match utf8Decode buf with
          | some s => .ok (rest2, s)
          | none => .error ⟨.Char, rest2⟩

/-- UTF-16 code-unit byte order. -/
inductive Endian where
  | Be
  | Le
deriving DecidableEq, Repr

/-- The BOM check of `parse_utf16`: with at least two bytes, `FE FF` selects
big-endian and `FF FE` little-endian, both consumed; anything else (and any
shorter buffer) is read as big-endian with nothing consumed. -/
def bomSplit (buf : List Nat) : List Nat × Endian :=
  match buf with
  | b0 :: b1 :: rest =>
      if b0 = 254 ∧ b1 = 255 then (rest, .Be)
      else if b0 = 255 ∧ b1 = 254 then (rest, .Le)
      else (buf, .Be)
  | _ => (buf, .Be)

/-- One 16-bit code unit from two bytes in the given order. -/
def u16Of (e : Endian) (b0 b1 : Nat) : Nat :=
  match e with
  | .Be => 256 * b0 + b1
  | .Le => b0 + 256 * b1

/-- The code-unit loop of `parse_utf16`: `buf.len() / 2` units, a trailing
odd byte dropped. -/
def buildUnits (e : Endian) : List Nat → List Nat
  | b0 :: b1 :: rest => u16Of e b0 b1 :: buildUnits e rest
  | _ => []

/-- `String::from_utf16_lossy`: surrogate pairs are combined, unpaired
surrogates become U+FFFD. -/
def utf16LossyGo : Nat → List Nat → List Nat
  | _, [] => []
  | 0, _ :: _ => []
  | fuel + 1, u :: rest =>
      if u < 55296 ∨ 57344 ≤ u then u :: utf16LossyGo fuel rest
      else if u ≤ 56319 then
        match rest with
        | l :: rest1 =>
            if 56320 ≤ l ∧ l ≤ 57343 then
              (65536 + (u - 55296) * 1024 + (l - 56320)) :: utf16LossyGo fuel rest1
            else 65533 :: utf16LossyGo fuel rest
        | [] => [65533]
      else 65533 :: utf16LossyGo fuel rest

/-- `String::from_utf16_lossy` of a whole code-unit list. -/
def utf16Lossy (units : List Nat) : List Nat :=
  utf16LossyGo units.length units

/-- `parse_utf16` of vdfr.rs: scan for the first two consecutive zero bytes,
split a BOM off the prefix, consume one NUL code unit from the remaining
input, decode the prefix pairwise, push a NUL code unit, and decode the
units lossily. -/
def parse_utf16 (input : List Nat) : NResult RStr :=
  match take_until00 input with
  | .error e => .error e
  | .ok (rest, buf) =>
      match bomSplit buf with
      | (payload, endian) =>
          match (match endian with | .Be => be_u16 rest | .Le => le_u16 rest) with
          | .error e => .error e
          | .ok (rest2, _) =>
              .ok (rest2, utf16Lossy (buildUnits endian payload ++ [0]))

/-- The nine value kinds of the wire format.  `Float32Type` keeps the raw
IEEE-754 bit pattern (stored verbatim by the program). -/
inductive Value where
  | StringType (s : RStr)
  | WideStringType (s : RStr)
  | Int32Type (i : Int)
  | PointerType (i : Int)
  | ColorType (i : Int)
  | UInt64Type (u : Nat)
  | Int64Type (i : Int)
  | Float32Type (bits : Nat)
  | KeyValueType (kv : List (RStr × Value))

/-- `KeyValue = HashMap<String, Value>`, as an association list with unique
keys (inserts overwrite in place). -/
abbrev KeyValue := List (RStr × Value)

/-- `HashMap::get`. -/
def mapLookup {κ α : Type} [DecidableEq κ] (k : κ) : List (κ × α) → Option α
  | [] => none
  | (k', v) :: rest => if k' = k then some v else mapLookup k rest

/-- `HashMap::insert`: overwrite the entry with the same key, else append. -/
def mapInsert {κ α : Type} [DecidableEq κ] (k : κ) (v : α) :
    List (κ × α) → List (κ × α)
  | [] => [(k, v)]
  | (k', v') :: rest =>
      if k' = k then (k, v) :: rest else (k', v') :: mapInsert k v rest

/-- `HashMap::remove`: drop every entry with the key (the maps built here
have unique keys, so this coincides with removing the one entry). -/
def mapRemove {κ α : Type} [DecidableEq κ] (k : κ) :
    List (κ × α) → List (κ × α)
  | [] => []
  | (k', v) :: rest =>
      if k' = k then mapRemove k rest else (k', v) :: mapRemove k rest

/-- `KeyValueOptions` of vdfr.rs. -/
structure KeyValueOptions where
  string_pool : List RStr
  alt_format : Bool
deriving Repr

/-- `KeyValueOptions::default()`. -/
def KeyValueOptions.default : KeyValueOptions := ⟨[], false⟩

/-- The key-reading block of `parse_bytes_kv`: an inline NUL-terminated
UTF-8 key when the string pool is empty, otherwise a `le_u32` index into
the pool, with an `Eof` error (at the post-index position) when the index
is out of range. -/
def parseKey (opts : KeyValueOptions) (res : List Nat) : NResult RStr :=
  if opts.string_pool = [] then parse_utf8 res
  else
    match le_u32 res with
    | .error e => .error e
    | .ok (res2, index) =>
        if opts.string_pool.length ≤ index then .error ⟨.Eof, res2⟩
        else .ok (res2, opts.string_pool.getD index [])

/-- The loop of `parse_bytes_kv`: read a tag byte; stop on the terminator
(`0x08`, or `0x0B` under `alt_format`); read the key; dispatch on the tag;
insert and continue.  Fueled: each recursive call (both the nested-map call
and the loop continuation) happens after at least one byte was consumed, so
`input length + 1` fuel never runs out. -/
def parseKVLoop : Nat → List Nat → KeyValueOptions → KeyValue → NResult KeyValue
  | 0, data, _, _ => .error ⟨.Fuel, data⟩
  | fuel + 1, data, opts, node =>
      match le_u8 data with
      | .error e => .error e
      | .ok (res, bin) =>
          if bin = (if opts.alt_format then 11 else 8) then .ok (res, node)
          else
            match parseKey opts res with
            | .error e => .error e
            | .ok (res, key) =>
                if bin = 0 then
                  match parseKVLoop fuel res opts [] with
                  | .error e => .error e
                  | .ok (res, sub) =>
                      parseKVLoop fuel res opts (mapInsert key (.KeyValueType sub) node)
                else if bin = 1 then
                  match parse_utf8 res with
                  | .error e => .error e
                  | .ok (res, s) =>
                      parseKVLoop fuel res opts (mapInsert key (.StringType s) node)
                else if bin = 5 then
                  match parse_utf16 res with
                  | .error e => .error e
                  | .ok (res, s) =>
                      parseKVLoop fuel res opts (mapInsert key (.WideStringType s) node)
                else if bin = 2 then
                  match le_i32 res with
                  | .error e => .error e
                  | .ok (res, i) =>
                      parseKVLoop fuel res opts (mapInsert key (.Int32Type i) node)
                else if bin = 4 then
                  match le_i32 res with
                  | .error e => .error e
                  | .ok (res, i) =>
                      parseKVLoop fuel res opts (mapInsert key (.PointerType i) node)
                else if bin = 6 then
                  match le_i32 res with
                  | .error e => .error e
                  | .ok (res, i) =>
                      parseKVLoop fuel res opts (mapInsert key (.ColorType i) node)
                else if bin = 7 then
                  match le_u64 res with
                  | .error e => .error e
                  | .ok (res, u) =>
                      parseKVLoop fuel res opts (mapInsert key (.UInt64Type u) node)
                else if bin = 10 then
                  match le_i64 res with
                  | .error e => .error e
                  | .ok (res, i) =>
                      parseKVLoop fuel res opts (mapInsert key (.Int64Type i) node)
                else if bin = 3 then
                  match le_f32 res with
                  | .error e => .error e
                  | .ok (res, bits) =>
                      parseKVLoop fuel res opts (mapInsert key (.Float32Type bits) node)
                else .error ⟨.Char, res⟩

/-- `parse_bytes_kv` of vdfr.rs. -/
def parse_bytes_kv (data : List Nat) (opts : KeyValueOptions) : NResult KeyValue :=
  parseKVLoop (data.length + 1) data opts []

/-- `parse_keyvalues` of vdfr.rs: the public `shortcuts.vdf` entry point. -/
def parse_keyvalues (data : List Nat) : Except VdfrError KeyValue :=
  match parse_bytes_kv data KeyValueOptions.default with
  | .error e => .error (throw_error e)
  | .ok (_, kv) => .ok kv

/-- `read_string_pools` of vdfr.rs: `count(parse_utf8, amount)`. -/
def read_string_pools : Nat → List Nat → NResult (List RStr)
  | 0, data => .ok (data, [])
  | n + 1, data =>
      match parse_utf8 data with
      | .error e => .error e
      | .ok (rest, s) =>
          match read_string_pools n rest with
          | .error e => .error e
          | .ok (rest2, ss) => .ok (rest2, s :: ss)

/-- `App` of vdfr.rs. -/
structure App where
  id : Nat
  size : Nat
  state : Nat
  last_update : Nat
  access_token : Nat
  checksum_txt : List Nat
  checksum_bin : Option (List Nat)
  change_number : Nat
  key_values : KeyValue

/-- `AppInfo` of vdfr.rs (`apps: HashMap<u32, App>`).  The Rust field
`universe` is called `univ` here because `universe` is a Lean keyword. -/
structure AppInfo where
  version : Nat
  univ : Nat
  apps : List (Nat × App)

def MAGIC_27 : Nat := 0x07564427
def MAGIC_28 : Nat := 0x07564428
def MAGIC_29 : Nat := 0x07564429

/-- The placeholder `App` that `parse_app` returns when the id field reads
as zero (the record body is not read). -/
def sentinelApp : App :=
  ⟨0, 0, 0, 0, 0, List.replicate 20 0, some (List.replicate 20 0), 0, []⟩

/-- `parse_app` of vdfr.rs: one app record.  An id of zero yields the
placeholder app with nothing further consumed; otherwise the fixed fields,
the optional `checksum_bin` (absent exactly for magic 27), and the embedded
KV tree. -/
def parse_app (data : List Nat) (opts : KeyValueOptions) (version : Nat) :
    NResult App :=
  match le_u32 data with
  | .error e => .error e
  | .ok (data, app_id) =>
      if app_id = 0 then .ok (data, sentinelApp)
      else
        match le_u32 data with
        | .error e => .error e
        | .ok (data, size) =>
        match le_u32 data with
        | .error e => .error e
        | .ok (data, state) =>
        match le_u32 data with
        | .error e => .error e
        | .ok (data, last_update) =>
        match le_u64 data with
        | .error e => .error e
        | .ok (data, access_token) =>
        match takeN 20 data with
        | .error e => .error e
        | .ok (data, checksum_txt) =>
        match le_u32 data with
        | .error e => .error e
        | .ok (data, change_number) =>
        match ((if version = MAGIC_27 then .ok (data, none)
               else
                 match takeN 20 data with
                 | .error e => .error e
                 | .ok (data, cb) => .ok (data, some cb)) :
                 NResult (Option (List Nat))) with
        | .error e => .error e
        | .ok (data, checksum_bin) =>
        match parseKVLoop (data.length + 1) data opts [] with
        | .error e => .error e
        | .ok (data, key_values) =>
            .ok (data, ⟨app_id, size, state, last_update, access_token,
              checksum_txt, checksum_bin, change_number, key_values⟩)

/-- nom `many0(parse_app)`: repeat until the inner parser fails, returning
the accumulated apps; error only on an iteration that consumes nothing. -/
def many0Apps : Nat → List Nat → KeyValueOptions → Nat → NResult (List App)
  | 0, data, _, _ => .error ⟨.Fuel, data⟩
  | fuel + 1, data, opts, version =>
      match parse_app data opts version with
      | .error _ => .ok (data, [])
      | .ok (rest, app) =>
          if rest.length = data.length then .error ⟨.Many0, data⟩
          else
            match many0Apps fuel rest opts version with
            | .error e => .error e
            | .ok (rest2, apps) => .ok (rest2, app :: apps)

/-- The `HashMap` collect of `parse_apps`: each app keyed by its own id,
later duplicates overwriting earlier ones. -/
def appsCollect (apps : List App) : List (Nat × App) :=
  apps.foldl (fun m a => mapInsert a.id a m) []

/-- `parse_apps` of vdfr.rs. -/
def parse_apps (data : List Nat) (opts : KeyValueOptions) (version : Nat) :
    NResult (List (Nat × App)) :=
  match many0Apps (data.length + 1) data opts version with
  | .error e => .error e
  | .ok (rest, apps) => .ok (rest, appsCollect apps)

/-- `AppInfo::load` outcome.  `panicked` models a Rust arithmetic-underflow
panic (debug overflow checking), which the function has on one path. -/
inductive LoadResult where
  | ok (info : AppInfo)
  | err (e : VdfrError)
  | panicked

/-- `offset as usize` on a 64-bit target: two's-complement reinterpretation
of the `i64`. -/
def i64_as_usize (z : Int) : Nat :=
  (z % 18446744073709551616).toNat

/-- The tail of `AppInfo::load` shared by all magic versions: parse the app
records, pop app 0, build the catalog. -/
def finishLoad (version univ : Nat) (payloads : List Nat)
    (options : KeyValueOptions) : LoadResult :=
  match parse_apps payloads options version with
  | .error e => .err (throw_error e)
  | .ok (_, apps) => .ok ⟨version, univ, mapRemove 0 apps⟩

/-- `AppInfo::load` of vdfr.rs: header (magic, universe), for magic 29 the
pool offset, the split at `offset - 16` into payload and string-pool region,
then the app records.  `(offset as usize) - 16` is a `usize` subtraction:
when the reinterpreted offset is below 16 it underflows (`panicked`). -/
def AppInfo.load (data : List Nat) : LoadResult :=
  match le_u32 data with
  | .error e => .err (throw_error e)
  | .ok (data, version) =>
  match le_u32 data with
  | .error e => .err (throw_error e)
  | .ok (data, univ) =>
      if version = MAGIC_27 ∨ version = MAGIC_28 then
        finishLoad version univ data ⟨[], false⟩
      else if version = MAGIC_29 then
        match le_i64 data with
        | .error e => .err (throw_error e)
        | .ok (data, offset) =>
            if i64_as_usize offset < 16 then .panicked
            else
              match takeN (i64_as_usize offset - 16) data with
              | .error e => .err (throw_error e)
              | .ok (string_pools, payload) =>
                  match le_u32 string_pools with
                  | .error e => .err (throw_error e)
                  | .ok (string_pools, cnt) =>
                      match read_string_pools cnt string_pools with
                      | .error e => .err (throw_error e)
                      | .ok (_, pool) =>
                          finishLoad version univ payload ⟨pool, false⟩
      else .err (.UnknownMagic version)

/-- `find_keys` of vdfr.rs: recursive descent through nested maps. -/
def find_keys : KeyValue → List RStr → Option Value
  | _, [] => none
  | kv, key :: rest =>
      if rest = [] then mapLookup key kv
      else
        match mapLookup key kv with
        | some (.KeyValueType kv') => find_keys kv' rest
        | _ => none

/-- `App::get` of vdfr.rs. -/
def App.get (app : App) (keys : List RStr) : Option Value :=
  find_keys app.key_values keys

/-- `value as u32`: two's-complement reinterpretation of an `i32`. -/
def i32_as_u32 (value : Int) : Nat :=
  (value % 4294967296).toNat

/-- `clamp_i32_to_u24` of steam.rs: `(value as u32) & 0x00FF_FFFF`. -/
def clamp_i32_to_u24 (value : Int) : Nat :=
  i32_as_u32 value &&& 16777215

/-- Little-endian encoding of a `u32`. -/
def u32le (n : Nat) : List Nat :=
  [n % 256, n / 256 % 256, n / 65536 % 256, n / 16777216 % 256]

/-- Little-endian encoding of a `u64`. -/
def u64le (n : Nat) : List Nat :=
  [n % 256, n / 256 % 256, n / 65536 % 256, n / 16777216 % 256,
   n / 4294967296 % 256, n / 1099511627776 % 256,
   n / 281474976710656 % 256, n / 72057594037927936 % 256]

/-- Little-endian encoding of an `i64` (two's complement). -/
def i64le (z : Int) : List Nat :=
  u64le (i64_as_usize z)

/-- Version-28 envelope header with universe 1. -/
def header28 : List Nat := [0x28, 0x44, 0x56, 0x07, 1, 0, 0, 0]

/-- Scenario S1 of the specification: version-28 header immediately followed
by the terminating id 0. -/
def input12 : List Nat := header28 ++ [0, 0, 0, 0]

/-- A complete version-28 app record: id 1, all other fixed fields zero, and
an empty key-value tree (a bare terminator byte). -/
def app1bytes : List Nat := [1, 0, 0, 0] ++ List.replicate 64 0 ++ [8]

/-- The app that `app1bytes` decodes to. -/
def app1 : App :=
  ⟨1, 0, 0, 0, 0, List.replicate 20 0, some (List.replicate 20 0), 0, []⟩

/-- The catalog holding exactly `app1`. -/
def cat1 : AppInfo := ⟨MAGIC_28, 1, [(1, app1)]⟩

/-- Version-28 header, one complete app record, then a single garbage byte:
reading the next record's id underruns after one byte. -/
def input1cex : List Nat := header28 ++ app1bytes ++ [255]

/-- Version-28 header, the 4-byte id-0 sentinel, and then a complete app
record lying *after* the sentinel. -/
def input2cex : List Nat := header28 ++ [0, 0, 0, 0] ++ app1bytes

/-- Version-28 header followed by one complete app record. -/
def input7 : List Nat := header28 ++ app1bytes

/-- A chain of nested-map lookups for a non-empty key path: every key but
the last resolves to a `KeyValueType` child, and the last key to `v`. -/
inductive KeyChain : KeyValue → List RStr → Value → Prop where
  | last (kv : KeyValue) (k : RStr) (v : Value) :
      mapLookup k kv = some v → KeyChain kv [k] v
  | step (kv : KeyValue) (k : RStr) (kv' : KeyValue) (ks : List RStr) (v : Value) :
      ks ≠ [] → mapLookup k kv = some (.KeyValueType kv') → KeyChain kv' ks v →
      KeyChain kv (k :: ks) v

/-! Consumption lemmas for the primitive readers. -/

theorem le_u8_length {data rest : List Nat} {b : Nat}
    (h : le_u8 data = .ok (rest, b)) : rest.length + 1 = data.length := by
  cases data with
  | nil => simp [le_u8] at h
  | cons x t =>
      simp only [le_u8, Except.ok.injEq, Prod.mk.injEq] at h
      obtain ⟨h1, -⟩ := h
      subst h1
      rfl

theorem le_u16_length {data rest : List Nat} {n : Nat}
    (h : le_u16 data = .ok (rest, n)) : rest.length + 2 = data.length := by
  rcases data with - | ⟨b0, - | ⟨b1, t⟩⟩
  · simp [le_u16] at h
  · simp [le_u16] at h
  · simp only [le_u16, Except.ok.injEq, Prod.mk.injEq] at h
    obtain ⟨h1, -⟩ := h
    subst h1
    rfl

theorem be_u16_length {data rest : List Nat} {n : Nat}
    (h : be_u16 data = .ok (rest, n)) : rest.length + 2 = data.length := by
  rcases data with - | ⟨b0, - | ⟨b1, t⟩⟩
  · simp [be_u16] at h
  · simp [be_u16] at h
  · simp only [be_u16, Except.ok.injEq, Prod.mk.injEq] at h
    obtain ⟨h1, -⟩ := h
    subst h1
    rfl

theorem le_u32_length {data rest : List Nat} {n : Nat}
    (h : le_u32 data = .ok (rest, n)) : rest.length + 4 = data.length := by
  rcases data with - | ⟨b0, - | ⟨b1, - | ⟨b2, - | ⟨b3, t⟩⟩⟩⟩
  · simp [le_u32] at h
  · simp [le_u32] at h
  · simp [le_u32] at h
  · simp [le_u32] at h
  · simp only [le_u32, Except.ok.injEq, Prod.mk.injEq] at h
    obtain ⟨h1, -⟩ := h
    subst h1
    rfl

theorem le_u64_length {data rest : List Nat} {n : Nat}
    (h : le_u64 data = .ok (rest, n)) : rest.length + 8 = data.length := by
  rcases data with - | ⟨b0, - | ⟨b1, - | ⟨b2, - | ⟨b3, - | ⟨b4, - | ⟨b5, - | ⟨b6, - | ⟨b7, t⟩⟩⟩⟩⟩⟩⟩⟩
  · simp [le_u64] at h
  · simp [le_u64] at h
  · simp [le_u64] at h
  · simp [le_u64] at h
  · simp [le_u64] at h
  · simp [le_u64] at h
  · simp [le_u64] at h
  · simp [le_u64] at h
  · simp only [le_u64, Except.ok.injEq, Prod.mk.injEq] at h
    obtain ⟨h1, -⟩ := h
    subst h1
    rfl

theorem le_i32_length {data rest : List Nat} {z : Int}
    (h : le_i32 data = .ok (rest, z)) : rest.length + 4 = data.length := by
  unfold le_i32 at h
  cases hu : le_u32 data with
  | error e => rw [hu] at h; cases h
  | ok pr =>
      obtain ⟨r, n⟩ := pr
      rw [hu] at h
      simp only [Except.ok.injEq, Prod.mk.injEq] at h
      obtain ⟨h1, -⟩ := h
      subst h1
      exact le_u32_length hu

theorem le_i64_length {data rest : List Nat} {z : Int}
    (h : le_i64 data = .ok (rest, z)) : rest.length + 8 = data.length := by
  unfold le_i64 at h
  cases hu : le_u64 data with
  | error e => rw [hu] at h; cases h
  | ok pr =>
      obtain ⟨r, n⟩ := pr
      rw [hu] at h
      simp only [Except.ok.injEq, Prod.mk.injEq] at h
      obtain ⟨h1, -⟩ := h
      subst h1
      exact le_u64_length hu

theorem le_f32_length {data rest : List Nat} {n : Nat}
    (h : le_f32 data = .ok (rest, n)) : rest.length + 4 = data.length :=
  le_u32_length h

theorem splitN_length {n : Nat} : ∀ {data remaining taken : List Nat},
    splitN n data = some (remaining, taken) →
    remaining.length + n = data.length := by
  induction n with
  | zero =>
      intro data remaining taken h
      simp only [splitN, Option.some.injEq, Prod.mk.injEq] at h
      obtain ⟨h1, -⟩ := h
      subst h1
      rfl
  | succ n ih =>
      intro data remaining taken h
      cases data with
      | nil => simp [splitN] at h
      | cons b t =>
          simp only [splitN] at h
          cases hs : splitN n t with
          | none => rw [hs] at h; cases h
          | some pr =>
              obtain ⟨r, tk⟩ := pr
              rw [hs] at h
              simp only [Option.some.injEq, Prod.mk.injEq] at h
              obtain ⟨h1, -⟩ := h
              subst h1
              have := ih hs
              simp only [List.length_cons]
              omega

theorem takeN_length {n : Nat} {data rest taken : List Nat}
    (h : takeN n data = .ok (rest, taken)) : rest.length + n = data.length := by
  unfold takeN at h
  cases hs : splitN n data with
  | none => rw [hs] at h; cases h
  | some pr =>
      obtain ⟨r, tk⟩ := pr
      rw [hs] at h
      simp only [Except.ok.injEq, Prod.mk.injEq] at h
      obtain ⟨h1, -⟩ := h
      subst h1
      exact splitN_length hs

theorem findNulIdx_lt_length : ∀ {input : List Nat} {i : Nat},
    findNulIdx input = some i → i < input.length := by
  intro input
  induction input with
  | nil => intro i h; simp [findNulIdx] at h
  | cons b t ih =>
      intro i h
      simp only [findNulIdx] at h
      by_cases hb : b = 0
      · rw [if_pos hb] at h
        injection h with h
        subst h
        simp
      · rw [if_neg hb] at h
        cases hf : findNulIdx t with
        | none => rw [hf] at h; cases h
        | some j =>
            rw [hf] at h
            injection h with h
            subst h
            have := ih hf
            simp only [List.length_cons]
            omega

theorem parse_utf8_length {input rest : List Nat} {s : RStr}
    (h : parse_utf8 input = .ok (rest, s)) : rest.length < input.length := by
  unfold parse_utf8 take_until0 at h
  cases hf : findNulIdx input with
  | none => rw [hf] at h; cases h
  | some i =>
      simp only [hf] at h
      have hi := findNulIdx_lt_length hf
      cases hd : le_u8 (input.drop i) with
      | error e => rw [hd] at h; cases h
      | ok pr =>
          obtain ⟨r2, b⟩ := pr
          rw [hd] at h
          have h2 := le_u8_length hd
          rw [List.length_drop] at h2
          cases hu : utf8Decode (input.take i) with
          | some s' =>
              rw [hu] at h
              simp only [Except.ok.injEq, Prod.mk.injEq] at h
              obtain ⟨h1, -⟩ := h
              subst h1
              omega
          | none => rw [hu] at h; cases h

theorem parse_utf16_length {input rest : List Nat} {s : RStr}
    (h : parse_utf16 input = .ok (rest, s)) : rest.length < input.length := by
  unfold parse_utf16 take_until00 at h
  cases hf : findNul2Idx input with
  | none => rw [hf] at h; cases h
  | some i =>
      simp only [hf] at h
      cases hbs : bomSplit (input.take i) with
      | mk payload endian =>
          rw [hbs] at h
          cases endian with
          | Be =>
              cases hd : be_u16 (input.drop i) with
              | error e => simp only [hd] at h; cases h
              | ok pr =>
                  obtain ⟨r2, u⟩ := pr
                  simp only [hd, Except.ok.injEq, Prod.mk.injEq] at h
                  obtain ⟨h1, -⟩ := h
                  subst h1
                  have h2 := be_u16_length hd
                  rw [List.length_drop] at h2
                  omega
          | Le =>
              cases hd : le_u16 (input.drop i) with
              | error e => simp only [hd] at h; cases h
              | ok pr =>
                  obtain ⟨r2, u⟩ := pr
                  simp only [hd, Except.ok.injEq, Prod.mk.injEq] at h
                  obtain ⟨h1, -⟩ := h
                  subst h1
                  have h2 := le_u16_length hd
                  rw [List.length_drop] at h2
                  omega

theorem parseKey_length {opts : KeyValueOptions} {res res2 : List Nat} {key : RStr}
    (h : parseKey opts res = .ok (res2, key)) : res2.length < res.length := by
  unfold parseKey at h
  by_cases hp : opts.string_pool = []
  · rw [if_pos hp] at h
    exact parse_utf8_length h
  · rw [if_neg hp] at h
    cases hu : le_u32 res with
    | error e => rw [hu] at h; cases h
    | ok pr =>
        obtain ⟨r, idx⟩ := pr
        rw [hu] at h
        by_cases hi : opts.string_pool.length ≤ idx
        · simp only [hi, if_true] at h
          cases h
        · simp only [hi, if_false, Except.ok.injEq, Prod.mk.injEq] at h
          obtain ⟨h1, -⟩ := h
          subst h1
          have := le_u32_length hu
          omega

theorem parseKVLoop_length : ∀ {fuel : Nat} {data : List Nat}
    {opts : KeyValueOptions} {node : KeyValue} {rest : List Nat} {kv : KeyValue},
    parseKVLoop fuel data opts node = .ok (rest, kv) → rest.length ≤ data.length := by
  intro fuel
  induction fuel with
  | zero =>
      intro data opts node rest kv h
      simp [parseKVLoop] at h
  | succ fuel ih =>
      intro data opts node rest kv h
      simp only [parseKVLoop] at h
      cases h8 : le_u8 data with
      | error e => rw [h8] at h; cases h
      | ok pr =>
          obtain ⟨res, bin⟩ := pr
          simp only [h8] at h
          have hl8 := le_u8_length h8
          by_cases hend : bin = (if opts.alt_format then 11 else 8)
          · rw [if_pos hend] at h
            simp only [Except.ok.injEq, Prod.mk.injEq] at h
            obtain ⟨h1, -⟩ := h
            subst h1
            omega
          · rw [if_neg hend] at h
            cases hk : parseKey opts res with
            | error e => rw [hk] at h; cases h
            | ok pk =>
                obtain ⟨res1, key⟩ := pk
                simp only [hk] at h
                have hlk := parseKey_length hk
                by_cases h0 : bin = 0
                · rw [if_pos h0] at h
                  cases hs : parseKVLoop fuel res1 opts [] with
                  | error e => rw [hs] at h; cases h
                  | ok ps =>
                      obtain ⟨res2, sub⟩ := ps
                      simp only [hs] at h
                      have l1 := ih hs
                      have l2 := ih h
                      omega
                · rw [if_neg h0] at h
                  by_cases h1 : bin = 1
                  · rw [if_pos h1] at h
                    cases hv : parse_utf8 res1 with
                    | error e => rw [hv] at h; cases h
                    | ok pv =>
                        obtain ⟨res2, s⟩ := pv
                        simp only [hv] at h
                        have l1 := parse_utf8_length hv
                        have l2 := ih h
                        omega
                  · rw [if_neg h1] at h
                    by_cases h5 : bin = 5
                    · rw [if_pos h5] at h
                      cases hv : parse_utf16 res1 with
                      | error e => rw [hv] at h; cases h
                      | ok pv =>
                          obtain ⟨res2, s⟩ := pv
                          simp only [hv] at h
                          have l1 := parse_utf16_length hv
                          have l2 := ih h
                          omega
                    · rw [if_neg h5] at h
                      by_cases h2 : bin = 2
                      · rw [if_pos h2] at h
                        cases hv : le_i32 res1 with
                        | error e => rw [hv] at h; cases h
                        | ok pv =>
                            obtain ⟨res2, i⟩ := pv
                            simp only [hv] at h
                            have l1 := le_i32_length hv
                            have l2 := ih h
                            omega
                      · rw [if_neg h2] at h
                        by_cases h4 : bin = 4
                        · rw [if_pos h4] at h
                          cases hv : le_i32 res1 with
                          | error e => rw [hv] at h; cases h
                          | ok pv =>
                              obtain ⟨res2, i⟩ := pv
                              simp only [hv] at h
                              have l1 := le_i32_length hv
                              have l2 := ih h
                              omega
                        · rw [if_neg h4] at h
                          by_cases h6 : bin = 6
                          · rw [if_pos h6] at h
                            cases hv : le_i32 res1 with
                            | error e => rw [hv] at h; cases h
                            | ok pv =>
                                obtain ⟨res2, i⟩ := pv
                                simp only [hv] at h
                                have l1 := le_i32_length hv
                                have l2 := ih h
                                omega
                          · rw [if_neg h6] at h
                            by_cases h7 : bin = 7
                            · rw [if_pos h7] at h
                              cases hv : le_u64 res1 with
                              | error e => rw [hv] at h; cases h
                              | ok pv =>
                                  obtain ⟨res2, u⟩ := pv
                                  simp only [hv] at h
                                  have l1 := le_u64_length hv
                                  have l2 := ih h
                                  omega
                            · rw [if_neg h7] at h
                              by_cases h10 : bin = 10
                              · rw [if_pos h10] at h
                                cases hv : le_i64 res1 with
                                | error e => rw [hv] at h; cases h
                                | ok pv =>
                                    obtain ⟨res2, i⟩ := pv
                                    simp only [hv] at h
                                    have l1 := le_i64_length hv
                                    have l2 := ih h
                                    omega
                              · rw [if_neg h10] at h
                                by_cases h3 : bin = 3
                                · rw [if_pos h3] at h
                                  cases hv : le_f32 res1 with
                                  | error e => rw [hv] at h; cases h
                                  | ok pv =>
                                      obtain ⟨res2, bits⟩ := pv
                                      simp only [hv] at h
                                      have l1 := le_f32_length hv
                                      have l2 := ih h
                                      omega
                                · rw [if_neg h3] at h
                                  cases h

theorem parse_app_length {data : List Nat} {opts : KeyValueOptions}
    {version : Nat} {rest : List Nat} {app : App}
    (h : parse_app data opts version = .ok (rest, app)) :
    rest.length < data.length := by
  unfold parse_app at h
  cases h1 : le_u32 data with
  | error e => rw [h1] at h; cases h
  | ok pr =>
      obtain ⟨d1, app_id⟩ := pr
      simp only [h1] at h
      have l1 := le_u32_length h1
      by_cases hz : app_id = 0
      · simp only [hz, if_true, Except.ok.injEq, Prod.mk.injEq] at h
        obtain ⟨h2, -⟩ := h
        subst h2
        omega
      · simp only [hz, if_false] at h
        cases h2 : le_u32 d1 with
        | error e => rw [h2] at h; cases h
        | ok pr2 =>
        obtain ⟨d2, size⟩ := pr2
        simp only [h2] at h
        have l2 := le_u32_length h2
        cases h3 : le_u32 d2 with
        | error e => rw [h3] at h; cases h
        | ok pr3 =>
        obtain ⟨d3, state⟩ := pr3
        simp only [h3] at h
        have l3 := le_u32_length h3
        cases h4 : le_u32 d3 with
        | error e => rw [h4] at h; cases h
        | ok pr4 =>
        obtain ⟨d4, lastup⟩ := pr4
        simp only [h4] at h
        have l4 := le_u32_length h4
        cases h5 : le_u64 d4 with
        | error e => rw [h5] at h; cases h
        | ok pr5 =>
        obtain ⟨d5, tok⟩ := pr5
        simp only [h5] at h
        have l5 := le_u64_length h5
        cases h6 : takeN 20 d5 with
        | error e => rw [h6] at h; cases h
        | ok pr6 =>
        obtain ⟨d6, ctxt⟩ := pr6
        simp only [h6] at h
        have l6 := takeN_length h6
        cases h7 : le_u32 d6 with
        | error e => rw [h7] at h; cases h
        | ok pr7 =>
        obtain ⟨d7, chn⟩ := pr7
        simp only [h7] at h
        have l7 := le_u32_length h7
        by_cases hv : version = MAGIC_27
        · simp only [hv, if_true] at h
          cases h9 : parseKVLoop (d7.length + 1) d7 opts [] with
          | error e => rw [h9] at h; cases h
          | ok pr9 =>
              obtain ⟨d9, kvs⟩ := pr9
              simp only [h9, Except.ok.injEq, Prod.mk.injEq] at h
              obtain ⟨hr, -⟩ := h
              subst hr
              have l9 := parseKVLoop_length h9
              omega
        · simp only [hv, if_false] at h
          cases h8 : takeN 20 d7 with
          | error e => rw [h8] at h; cases h
          | ok pr8 =>
              obtain ⟨d8, cbin⟩ := pr8
              simp only [h8] at h
              have l8 := takeN_length h8
              cases h9 : parseKVLoop (d8.length + 1) d8 opts [] with
              | error e => rw [h9] at h; cases h
              | ok pr9 =>
                  obtain ⟨d9, kvs⟩ := pr9
                  simp only [h9, Except.ok.injEq, Prod.mk.injEq] at h
                  obtain ⟨hr, -⟩ := h
                  subst hr
                  have l9 := parseKVLoop_length h9
                  omega

/-! `many0(parse_app)` never fails: a failing record ends the loop normally. -/

theorem many0Apps_ok : ∀ (fuel : Nat) (data : List Nat) (opts : KeyValueOptions)
    (version : Nat), data.length < fuel →
    ∃ rest apps, many0Apps fuel data opts version = .ok (rest, apps) := by
  intro fuel
  induction fuel with
  | zero => intro data opts version h; omega
  | succ fuel ih =>
      intro data opts version h
      simp only [many0Apps]
      cases hp : parse_app data opts version with
      | error e => exact ⟨data, [], rfl⟩
      | ok pr =>
          obtain ⟨rest, app⟩ := pr
          have hlt := parse_app_length hp
          have hne : ¬rest.length = data.length := by omega
          obtain ⟨r2, apps, hm⟩ := ih rest opts version (by omega)
          simp only [hne, if_false, hm]
          exact ⟨r2, app :: apps, rfl⟩

theorem parse_apps_ok (data : List Nat) (opts : KeyValueOptions) (version : Nat) :
    ∃ rest apps, parse_apps data opts version = .ok (rest, apps) := by
  obtain ⟨r, l, h⟩ := many0Apps_ok (data.length + 1) data opts version (by omega)
  refine ⟨r, appsCollect l, ?_⟩
  unfold parse_apps
  rw [h]

/-- Every app in a `many0` run was produced by some `parse_app` call with
the same options and version. -/
theorem many0Apps_mem : ∀ {fuel : Nat} {data : List Nat} {opts : KeyValueOptions}
    {version : Nat} {rest : List Nat} {apps : List App},
    many0Apps fuel data opts version = .ok (rest, apps) →
    ∀ {a : App}, a ∈ apps → ∃ d r, parse_app d opts version = .ok (r, a) := by
  intro fuel
  induction fuel with
  | zero =>
      intro data opts version rest apps h
      simp [many0Apps] at h
  | succ fuel ih =>
      intro data opts version rest apps h a hmem
      simp only [many0Apps] at h
      cases hp : parse_app data opts version with
      | error e =>
          rw [hp] at h
          simp only [Except.ok.injEq, Prod.mk.injEq] at h
          obtain ⟨-, h2⟩ := h
          subst h2
          cases hmem
      | ok pr =>
          obtain ⟨r1, app⟩ := pr
          simp only [hp] at h
          by_cases hl : r1.length = data.length
          · rw [if_pos hl] at h; cases h
          · rw [if_neg hl] at h
            cases hm2 : many0Apps fuel r1 opts version with
            | error e => rw [hm2] at h; cases h
            | ok pr2 =>
                obtain ⟨r2, apps2⟩ := pr2
                simp only [hm2, Except.ok.injEq, Prod.mk.injEq] at h
                obtain ⟨-, h2⟩ := h
                subst h2
                rcases List.mem_cons.mp hmem with rfl | hmem2
                · exact ⟨data, r1, hp⟩
                · exact ih hm2 hmem2

/-- A non-placeholder app has `checksum_bin` exactly when the version is
not magic 27. -/
theorem parse_app_checksum {data : List Nat} {opts : KeyValueOptions}
    {version : Nat} {rest : List Nat} {app : App}
    (h : parse_app data opts version = .ok (rest, app)) (hid : app.id ≠ 0) :
    app.checksum_bin.isSome = true ↔ version ≠ MAGIC_27 := by
  unfold parse_app at h
  cases h1 : le_u32 data with
  | error e => rw [h1] at h; cases h
  | ok pr =>
      obtain ⟨d1, app_id⟩ := pr
      simp only [h1] at h
      by_cases hz : app_id = 0
      · simp only [hz, if_true, Except.ok.injEq, Prod.mk.injEq] at h
        obtain ⟨-, h2⟩ := h
        subst h2
        simp [sentinelApp] at hid
      · simp only [hz, if_false] at h
        cases h2 : le_u32 d1 with
        | error e => rw [h2] at h; cases h
        | ok pr2 =>
        obtain ⟨d2, size⟩ := pr2
        simp only [h2] at h
        cases h3 : le_u32 d2 with
        | error e => rw [h3] at h; cases h
        | ok pr3 =>
        obtain ⟨d3, state⟩ := pr3
        simp only [h3] at h
        cases h4 : le_u32 d3 with
        | error e => rw [h4] at h; cases h
        | ok pr4 =>
        obtain ⟨d4, lastup⟩ := pr4
        simp only [h4] at h
        cases h5 : le_u64 d4 with
        | error e => rw [h5] at h; cases h
        | ok pr5 =>
        obtain ⟨d5, tok⟩ := pr5
        simp only [h5] at h
        cases h6 : takeN 20 d5 with
        | error e => rw [h6] at h; cases h
        | ok pr6 =>
        obtain ⟨d6, ctxt⟩ := pr6
        simp only [h6] at h
        cases h7 : le_u32 d6 with
        | error e => rw [h7] at h; cases h
        | ok pr7 =>
        obtain ⟨d7, chn⟩ := pr7
        simp only [h7] at h
        by_cases hv : version = MAGIC_27
        · simp only [hv, if_true] at h
          cases h9 : parseKVLoop (d7.length + 1) d7 opts [] with
          | error e => rw [h9] at h; cases h
          | ok pr9 =>
              obtain ⟨d9, kvs⟩ := pr9
              simp only [h9, Except.ok.injEq, Prod.mk.injEq] at h
              obtain ⟨-, h2⟩ := h
              subst h2
              simp [hv]
        · simp only [hv, if_false] at h
          cases h8 : takeN 20 d7 with
          | error e => rw [h8] at h; cases h
          | ok pr8 =>
              obtain ⟨d8, cbin⟩ := pr8
              simp only [h8] at h
              cases h9 : parseKVLoop (d8.length + 1) d8 opts [] with
              | error e => rw [h9] at h; cases h
              | ok pr9 =>
                  obtain ⟨d9, kvs⟩ := pr9
                  simp only [h9, Except.ok.injEq, Prod.mk.injEq] at h
                  obtain ⟨-, h2⟩ := h
                  subst h2
                  simp [hv]

/-! Association-list facts about the `HashMap` model. -/

theorem mapLookup_mapInsert {κ α : Type} [DecidableEq κ] (k k' : κ) (v : α)
    (m : List (κ × α)) :
    mapLookup k (mapInsert k' v m) = if k' = k then some v else mapLookup k m := by
  induction m with
  | nil => simp [mapInsert, mapLookup]
  | cons p rest ih =>
      obtain ⟨k2, v2⟩ := p
      by_cases h : k2 = k'
      · subst h
        by_cases h2 : k2 = k
        · subst h2
          simp [mapInsert, mapLookup]
        · simp [mapInsert, mapLookup, h2]
      · have h' : ¬k' = k2 := fun hx => h hx.symm
        by_cases h2 : k2 = k
        · subst h2
          simp [mapInsert, mapLookup, h, h']
        · simp [mapInsert, mapLookup, h, h2, ih]

theorem mapLookup_mapRemove {κ α : Type} [DecidableEq κ] (k j : κ)
    (m : List (κ × α)) :
    mapLookup j (mapRemove k m) = if j = k then none else mapLookup j m := by
  induction m with
  | nil => simp [mapRemove, mapLookup]
  | cons p rest ih =>
      obtain ⟨k2, v2⟩ := p
      by_cases h : k2 = k
      · subst h
        by_cases hj : j = k2
        · subst hj
          simp [mapRemove, mapLookup, ih]
        · have h2 : ¬k2 = j := fun hx => hj hx.symm
          simp [mapRemove, mapLookup, ih, hj, h2]
      · by_cases hj : j = k
        · subst hj
          simp [mapRemove, mapLookup, ih, h]
        · by_cases h2 : k2 = j
          · subst h2
            simp [mapRemove, mapLookup, h, hj]
          · simp [mapRemove, mapLookup, ih, h, hj, h2]

theorem appsCollectAux_id : ∀ (l : List App) (m : List (Nat × App)),
    (∀ k a, mapLookup k m = some a → a.id = k) →
    ∀ k a, mapLookup k (l.foldl (fun m a => mapInsert a.id a m) m) = some a →
      a.id = k := by
  intro l
  induction l with
  | nil => intro m hm k a h; exact hm k a h
  | cons x l ih =>
      intro m hm k a h
      refine ih _ ?_ k a h
      intro k' a' h'
      rw [mapLookup_mapInsert] at h'
      by_cases hx : x.id = k'
      · rw [if_pos hx] at h'
        injection h' with h'
        subst h'
        exact hx
      · rw [if_neg hx] at h'
        exact hm k' a' h'

theorem appsCollectAux_mem : ∀ (l : List App) (m : List (Nat × App)) (k : Nat)
    (a : App), mapLookup k (l.foldl (fun m a => mapInsert a.id a m) m) = some a →
    a ∈ l ∨ mapLookup k m = some a := by
  intro l
  induction l with
  | nil => intro m k a h; exact Or.inr h
  | cons x l ih =>
      intro m k a h
      rcases ih _ k a h with hmem | hl
      · exact Or.inl (List.mem_cons_of_mem _ hmem)
      · rw [mapLookup_mapInsert] at hl
        by_cases hx : x.id = k
        · rw [if_pos hx] at hl
          injection hl with hl
          subst hl
          exact Or.inl (List.mem_cons_self _ _)
        · rw [if_neg hx] at hl
          exact Or.inr hl

theorem appsCollect_id {l : List App} {k : Nat} {a : App}
    (h : mapLookup k (appsCollect l) = some a) : a.id = k := by
  refine appsCollectAux_id l [] ?_ k a h
  intro k' a' h'
  simp [mapLookup] at h'

theorem appsCollect_mem {l : List App} {k : Nat} {a : App}
    (h : mapLookup k (appsCollect l) = some a) : a ∈ l := by
  rcases appsCollectAux_mem l [] k a h with hmem | hl
  · exact hmem
  · simp [mapLookup] at hl

/-! Decomposing a successful `AppInfo::load`. -/

theorem finishLoad_ok {version univ : Nat} {p : List Nat} {o : KeyValueOptions}
    {info : AppInfo} (h : finishLoad version univ p o = .ok info) :
    ∃ l rest, many0Apps (p.length + 1) p o version = .ok (rest, l) ∧
      info = ⟨version, univ, mapRemove 0 (appsCollect l)⟩ := by
  unfold finishLoad parse_apps at h
  cases hm : many0Apps (p.length + 1) p o version with
  | error e => rw [hm] at h; cases h
  | ok pr =>
      obtain ⟨r, l⟩ := pr
      simp only [hm] at h
      injection h with h
      exact ⟨l, r, rfl, h.symm⟩

theorem finishLoad_ne_panicked (version univ : Nat) (p : List Nat)
    (o : KeyValueOptions) : finishLoad version univ p o ≠ .panicked := by
  unfold finishLoad
  cases hm : parse_apps p o version with
  | error e => intro hc; cases hc
  | ok pr => intro hc; cases hc

theorem load_ok_finishLoad {data : List Nat} {info : AppInfo}
    (h : AppInfo.load data = .ok info) :
    ∃ version univ p o, finishLoad version univ p o = .ok info := by
  unfold AppInfo.load at h
  cases h1 : le_u32 data with
  | error e => rw [h1] at h; cases h
  | ok pr =>
      obtain ⟨d1, version⟩ := pr
      simp only [h1] at h
      cases h2 : le_u32 d1 with
      | error e => rw [h2] at h; cases h
      | ok pr2 =>
          obtain ⟨d2, univ⟩ := pr2
          simp only [h2] at h
          by_cases hv : version = MAGIC_27 ∨ version = MAGIC_28
          · rw [if_pos hv] at h
            exact ⟨version, univ, d2, ⟨[], false⟩, h⟩
          · rw [if_neg hv] at h
            by_cases hv9 : version = MAGIC_29
            · rw [if_pos hv9] at h
              cases h3 : le_i64 d2 with
              | error e => rw [h3] at h; cases h
              | ok pr3 =>
                  obtain ⟨d3, offset⟩ := pr3
                  simp only [h3] at h
                  by_cases hp : i64_as_usize offset < 16
                  · rw [if_pos hp] at h; cases h
                  · rw [if_neg hp] at h
                    cases h4 : takeN (i64_as_usize offset - 16) d3 with
                    | error e => rw [h4] at h; cases h
                    | ok pr4 =>
                        obtain ⟨sp, pl⟩ := pr4
                        simp only [h4] at h
                        cases h5 : le_u32 sp with
                        | error e => rw [h5] at h; cases h
                        | ok pr5 =>
                            obtain ⟨sp2, cnt⟩ := pr5
                            simp only [h5] at h
                            cases h6 : read_string_pools cnt sp2 with
                            | error e => rw [h6] at h; cases h
                            | ok pr6 =>
                                obtain ⟨sp3, pool⟩ := pr6
                                simp only [h6] at h
                                exact ⟨version, univ, pl, ⟨pool, false⟩, h⟩
            · rw [if_neg hv9] at h; cases h

/-- Claim C1 (amended): `parse_keyvalues` propagates every KV-decoder
failure as `Err` (rendered as `NomError`), and header or string-pool
failures in `AppInfo::load` abort the load; but a decode failure inside an
app record does not abort the parse: `many0` converts the first failing
record into normal termination, so `parse_apps` always succeeds with the
records decoded before the failure and `load` can return `Ok` with a
partial catalog. -/
theorem claim_C1 :
    (∀ (data : List Nat) (opts : KeyValueOptions) (version : Nat),
      ∃ rest apps, parse_apps data opts version = .ok (rest, apps)) ∧
    (∀ (data : List Nat) (e : NErr),
      parse_bytes_kv data KeyValueOptions.default = .error e →
      parse_keyvalues data = .error (.NomError e.kind)) := by
  constructor
  · intro data opts version
    exact parse_apps_ok data opts version
  · intro data e h
    unfold parse_keyvalues
    rw [h]
    rfl

/-- Witness for C1: a one-byte KV stream fails (`take_until` finds no NUL)
and `parse_keyvalues` surfaces the failure as `Err(NomError)`. -/
theorem claim_C1_witness :
    parse_bytes_kv [255] KeyValueOptions.default = .error ⟨.TakeUntil, []⟩ ∧
      parse_keyvalues [255] = .error (.NomError .TakeUntil) := by
  refine ⟨rfl, ?_⟩
  exact claim_C1.2 [255] ⟨.TakeUntil, []⟩ rfl

/-- Counterexample to C1 as stated: `input1cex` ends in a truncated app
record (a single garbage byte, so reading the next record id underruns),
yet `AppInfo::load` returns `Ok` with the one complete record — a partial
catalog surfaced as `Ok`, not an `Err`. -/
theorem claim_C1_counterexample : AppInfo.load input1cex = .ok cat1 := rfl

/-- Claim C2 (amended): a record whose id reads as zero has no body read —
exactly the four id bytes are consumed and a placeholder app (id 0) is
returned — but the app-record stream does NOT end there: `many0` keeps
parsing the following bytes as further records (see the counterexample).
The concrete 12-byte input still decodes to the empty catalog because the
placeholder is removed by `apps.remove(&0)`. -/
theorem claim_C2 :
    (∀ (rest : List Nat) (opts : KeyValueOptions) (version : Nat),
      parse_app (0 :: 0 :: 0 :: 0 :: rest) opts version = .ok (rest, sentinelApp)) ∧
      AppInfo.load input12 = .ok ⟨MAGIC_28, 1, []⟩ := by
  constructor
  · intro rest opts version
    rfl
  · rfl

/-- Counterexample to C2 as stated: in `input2cex` a complete app record
lies after the 4-byte id-0 sentinel, and the loader parses it — the final
catalog contains app 1, so bytes after the sentinel ARE consumed as app
records. -/
theorem claim_C2_counterexample :
    AppInfo.load input2cex = .ok cat1 ∧ mapLookup 1 cat1.apps = some app1 :=
  ⟨rfl, rfl⟩

/-- Claim C6: every catalog produced by `AppInfo::load` has no entry under
key 0, and every entry is keyed by its own app id. -/
theorem claim_C6 (data : List Nat) (info : AppInfo)
    (h : AppInfo.load data = .ok info) :
    mapLookup 0 info.apps = none ∧
      ∀ k a, mapLookup k info.apps = some a → a.id = k := by
  obtain ⟨v, u, p, o, hf⟩ := load_ok_finishLoad h
  obtain ⟨l, r, hm, hinfo⟩ := finishLoad_ok hf
  subst hinfo
  constructor
  · simp [mapLookup_mapRemove]
  · intro k a ha
    rw [mapLookup_mapRemove] at ha
    by_cases hk : k = 0
    · rw [if_pos hk] at ha; cases ha
    · rw [if_neg hk] at ha
      exact appsCollect_id ha

/-- Witness for C6 at the minimal version-28 catalog. -/
theorem claim_C6_witness :
    AppInfo.load input12 = .ok ⟨MAGIC_28, 1, []⟩ ∧
      mapLookup 0 (AppInfo.mk MAGIC_28 1 []).apps = none := by
  refine ⟨rfl, ?_⟩
  exact (claim_C6 input12 ⟨MAGIC_28, 1, []⟩ rfl).1

/-- Claim C7: in every catalog produced by `AppInfo::load`, an app has
`checksum_bin` present if and only if the catalog version is not magic 27
(so exactly for versions 28 and 29). -/
theorem claim_C7 (data : List Nat) (info : AppInfo) (k : Nat) (a : App)
    (h : AppInfo.load data = .ok info)
    (ha : mapLookup k info.apps = some a) :
    a.checksum_bin.isSome = true ↔ info.version ≠ MAGIC_27 := by
  obtain ⟨v, u, p, o, hf⟩ := load_ok_finishLoad h
  obtain ⟨l, r, hm, hinfo⟩ := finishLoad_ok hf
  subst hinfo
  rw [mapLookup_mapRemove] at ha
  by_cases hk : k = 0
  · rw [if_pos hk] at ha; cases ha
  · rw [if_neg hk] at ha
    have hid : a.id = k := appsCollect_id ha
    have hmem : a ∈ l := appsCollect_mem ha
    obtain ⟨d, r2, hp⟩ := many0Apps_mem hm hmem
    exact parse_app_checksum hp (by rw [hid]; exact hk)

/-- Witness for C7 at a version-28 catalog holding one app. -/
theorem claim_C7_witness :
    AppInfo.load input7 = .ok cat1 ∧
      (app1.checksum_bin.isSome = true ↔ cat1.version ≠ MAGIC_27) := by
  refine ⟨rfl, ?_⟩
  exact claim_C7 input7 cat1 1 app1 rfl rfl

/-- Claim C9: `clamp_i32_to_u24` keeps the low 24 bits of the two's
complement `u32` reinterpretation of its `i32` argument, and takes the two
stated concrete values. -/
theorem claim_C9 :
    (∀ value : Int, -2147483648 ≤ value → value < 2147483648 →
      clamp_i32_to_u24 value = i32_as_u32 value % 16777216) ∧
      clamp_i32_to_u24 (-1) = 16777215 ∧
      clamp_i32_to_u24 (-1195449660) = 12509892 := by
  refine ⟨?_, by decide, by decide⟩
  intro v h1 h2
  unfold clamp_i32_to_u24
  have h := Nat.and_pow_two_sub_one_eq_mod (i32_as_u32 v) 24
  norm_num at h
  exact h

/-- Witness for C9 at the i32 value -1. -/
theorem claim_C9_witness :
    (-2147483648 : Int) ≤ -1 ∧
      clamp_i32_to_u24 (-1) = i32_as_u32 (-1) % 16777216 := by
  refine ⟨by norm_num, ?_⟩
  exact claim_C9.1 (-1) (by norm_num) (by norm_num)

/-- `find_keys` returns `some v` exactly when the key path is a chain of
nested maps ending in `v`. -/
theorem find_keys_iff : ∀ (keys : List RStr) (kv : KeyValue) (v : Value),
    find_keys kv keys = some v ↔ KeyChain kv keys v := by
  intro keys
  induction keys with
  | nil =>
      intro kv v
      constructor
      · intro h
        simp [find_keys] at h
      · intro hc
        cases hc
  | cons k rest ih =>
      intro kv v
      by_cases hr : rest = []
      · subst hr
        simp only [find_keys, if_pos rfl]
        constructor
        · intro h
          exact KeyChain.last kv k v h
        · intro hc
          cases hc with
          | last _ _ _ hl => exact hl
          | step _ _ kv2 ks _ hne hlk hch => exact absurd rfl hne
      · constructor
        · intro h
          simp only [find_keys, if_neg hr] at h
          cases hl : mapLookup k kv with
          | none => rw [hl] at h; simp at h
          | some val =>
              rw [hl] at h
              rcases val with s | s | i | i | i | u | i | bits | kv2
              · simp at h
              · simp at h
              · simp at h
              · simp at h
              · simp at h
              · simp at h
              · simp at h
              · simp at h
              · exact KeyChain.step kv k kv2 rest v hr hl ((ih kv2 v).mp h)
        · intro hc
          cases hc with
          | last _ _ _ hl => exact absurd rfl hr
          | step _ _ kv2 ks _ hne hlk hch =>
              simp only [find_keys, if_neg hr, hlk]
              exact (ih kv2 v).mpr hch

/-- Claim C8: `App::get` on a key path returns `Some v` exactly when the
path is a chain of nested maps in `key_values` ending in `v`; in
particular the empty path returns `None`, and the function is total (the
embedding is a plain function, so no panic is possible). -/
theorem claim_C8 (app : App) :
    (∀ (keys : List RStr) (v : Value),
      App.get app keys = some v ↔ KeyChain app.key_values keys v) ∧
      App.get app [] = none := by
  constructor
  · intro keys v
    exact find_keys_iff keys app.key_values v
  · rfl

/-- The scan for a single NUL byte finds exactly the first index holding 0. -/
theorem findNulIdx_of_first : ∀ {input : List Nat} {i : Nat},
    input[i]? = some 0 → (∀ j, j < i → input[j]? ≠ some 0) →
    findNulIdx input = some i := by
  intro input
  induction input with
  | nil => intro i h1 h2; simp at h1
  | cons b t ih =>
      intro i h1 h2
      cases i with
      | zero =>
          simp at h1
          simp [findNulIdx, h1]
      | succ i2 =>
          have hb : ¬b = 0 := by
            intro hb0
            exact h2 0 (Nat.succ_pos i2) (by simp [hb0])
          have h1a : t[i2]? = some 0 := by simpa using h1
          have h2a : ∀ j, j < i2 → t[j]? ≠ some 0 := by
            intro j hj
            have := h2 (j + 1) (Nat.succ_lt_succ hj)
            simpa using this
          simp [findNulIdx, hb, ih h1a h2a]

/-- Claim C4 (amended): on any input containing a NUL byte, `parse_utf8`
consumes up to and including the first NUL and decodes the preceding bytes
as STRICT UTF-8: a valid prefix yields `Ok`, an invalid one fails the parse
with a `Char` error (surfaced as `NomError`) — decoding is not lossy. -/
theorem claim_C4 (input : List Nat) (i : Nat)
    (h1 : input[i]? = some 0) (h2 : ∀ j, j < i → input[j]? ≠ some 0) :
    parse_utf8 input =
      match utf8Decode (input.take i) with
      | some s => .ok (input.drop (i + 1), s)
      | none => .error ⟨.Char, input.drop (i + 1)⟩ := by
  have hfind : findNulIdx input = some i := findNulIdx_of_first h1 h2
  have hi : i < input.length := findNulIdx_lt_length hfind
  have h3 : input[i] = 0 := by
    have h4 := List.getElem?_eq_getElem hi
    rw [h4] at h1
    injection h1
  have hdrop : input.drop i = 0 :: input.drop (i + 1) := by
    rw [List.drop_eq_getElem_cons hi, h3]
  unfold parse_utf8 take_until0
  simp only [hfind, hdrop, le_u8]

/-- Witness for C4: `"a\0"` decodes strictly to `"a"` with nothing left. -/
theorem claim_C4_witness :
    (([97, 0] : List Nat)[1]? = some 0) ∧ parse_utf8 [97, 0] = .ok ([], [97]) := by
  refine ⟨by decide, ?_⟩
  have h := claim_C4 [97, 0] 1 (by decide)
    (fun j hj => by
      have hj0 : j = 0 := by omega
      subst hj0
      decide)
  exact h

/-- Counterexample to C4 as stated: the invalid UTF-8 byte 0xFF before the
NUL makes the parse FAIL with a `Char` error instead of decoding lossily
to U+FFFD. -/
theorem claim_C4_counterexample :
    parse_utf8 [255, 0] = .error ⟨.Char, []⟩ := rfl

theorem findNul2Idx_cons_succ (b : Nat) (t : List Nat) :
    findNul2Idx ((b + 1) :: t) =
      match findNul2Idx t with
      | some i => some (i + 1)
      | none => none := rfl

theorem findNul2Idx_cons0_cons_succ (c : Nat) (t : List Nat) :
    findNul2Idx (0 :: (c + 1) :: t) =
      match findNul2Idx ((c + 1) :: t) with
      | some i => some (i + 1)
      | none => none := rfl

/-- The scan for two consecutive NUL bytes finds exactly the first index
where a (possibly unaligned) 00-00 pair starts. -/
theorem findNul2Idx_of_first : ∀ {input : List Nat} {i : Nat},
    input[i]? = some 0 → input[i + 1]? = some 0 →
    (∀ j, j < i → ¬(input[j]? = some 0 ∧ input[j + 1]? = some 0)) →
    findNul2Idx input = some i := by
  intro input
  induction input with
  | nil => intro i h1 h2 h3; simp at h1
  | cons b t ih =>
      intro i h1 h2 h3
      cases i with
      | zero =>
          simp at h1
          have h2a : t[0]? = some 0 := by simpa using h2
          cases t with
          | nil => simp at h2a
          | cons c t2 =>
              simp at h2a
              subst h1
              subst h2a
              rfl
      | succ i2 =>
          have hnot : ¬(b = 0 ∧ t[0]? = some 0) := by
            have := h3 0 (Nat.succ_pos i2)
            simpa using this
          have h1a : t[i2]? = some 0 := by simpa using h1
          have h2a : t[i2 + 1]? = some 0 := by simpa using h2
          have h3a : ∀ j, j < i2 → ¬(t[j]? = some 0 ∧ t[j + 1]? = some 0) := by
            intro j hj
            have := h3 (j + 1) (Nat.succ_lt_succ hj)
            simpa using this
          have hrec := ih h1a h2a h3a
          cases t with
          | nil => simp at h1a
          | cons c t2 =>
              rcases Nat.eq_zero_or_pos b with hb | hb
              · subst hb
                have hc : ¬c = 0 := by
                  intro hc0
                  exact hnot ⟨rfl, by simp [hc0]⟩
                obtain ⟨c2, rfl⟩ := Nat.exists_eq_succ_of_ne_zero hc
                rw [findNul2Idx_cons0_cons_succ, hrec]
              · obtain ⟨b2, rfl⟩ := Nat.exists_eq_succ_of_ne_zero (by omega : b ≠ 0)
                rw [findNul2Idx_cons_succ, hrec]

/-- Claim C5 (amended): on any input containing two consecutive zero bytes,
`parse_utf16` scans for the FIRST such pair at any byte offset (not
necessarily on a 16-bit boundary), takes the bytes before it as the string
buffer, consumes two further bytes as the NUL code unit, splits a BOM off
the buffer (`FE FF` big-endian, `FF FE` little-endian, both consumed, else
big-endian with nothing consumed), decodes the buffer pairwise dropping a
trailing odd byte, and returns the decoded units FOLLOWED BY A NUL
CHARACTER, which the code pushes before the lossy UTF-16 conversion. -/
theorem claim_C5 (input : List Nat) (i : Nat)
    (h1 : input[i]? = some 0) (h2 : input[i + 1]? = some 0)
    (h3 : ∀ j, j < i → ¬(input[j]? = some 0 ∧ input[j + 1]? = some 0)) :
    parse_utf16 input =
      .ok (input.drop (i + 2),
        utf16Lossy (buildUnits (bomSplit (input.take i)).2
          (bomSplit (input.take i)).1 ++ [0])) := by
  have hfind := findNul2Idx_of_first h1 h2 h3
  obtain ⟨hi, hv⟩ := List.getElem?_eq_some.mp h1
  obtain ⟨hi2, hv2⟩ := List.getElem?_eq_some.mp h2
  have hdrop : input.drop i = 0 :: 0 :: input.drop (i + 2) := by
    rw [List.drop_eq_getElem_cons hi, List.drop_eq_getElem_cons hi2, hv, hv2]
  unfold parse_utf16 take_until00
  simp only [hfind, hdrop]
  cases hbs : bomSplit (input.take i) with
  | mk payload endian =>
      cases endian with
      | Be => simp [be_u16]
      | Le => simp [le_u16]

/-- Witness for C5: the two-byte input `00 00` is an empty wide string, and
the output holds exactly the pushed NUL character. -/
theorem claim_C5_witness :
    (([0, 0] : List Nat)[0]? = some 0) ∧ parse_utf16 [0, 0] = .ok ([], [0]) := by
  refine ⟨by decide, ?_⟩
  have h := claim_C5 [0, 0] 0 (by decide) (by decide)
    (fun j hj => absurd hj (Nat.not_lt_zero j))
  exact h

/-- Counterexample to C5 as stated: in `61 00 00 62 00 00` the first NUL
code unit on a 16-bit boundary is the third unit, but the code stops at the
unaligned pair at byte offset 1: only `61` enters the buffer (then dropped
as an odd trailing byte), the bytes `62 00 00` are left unconsumed, and the
output contains the NUL terminator. -/
theorem claim_C5_counterexample :
    parse_utf16 [97, 0, 0, 98, 0, 0] = .ok ([98, 0, 0], [0]) ∧
      (0 : Nat) ∈ ([0] : List Nat) := ⟨rfl, by decide⟩

/-- Claim C3 (amended): an unknown tag byte at a value position fails the
decode only AFTER the key has been parsed, with a nom `Char` error carrying
the post-key position; an out-of-range pool index fails with a nom `Eof`
error at the post-index position; and every error surfaced by
`parse_keyvalues` is a `NomError` — the `InvalidType` and
`InvalidStringIndex` variants are never produced by this parser. -/
theorem claim_C3 :
    (∀ (fuel : Nat) (rest res : List Nat) (key : RStr) (opts : KeyValueOptions)
        (node : KeyValue) (tag : Nat),
      tag ∉ ([0, 1, 2, 3, 4, 5, 6, 7, 10] : List Nat) →
      tag ≠ (if opts.alt_format then 11 else 8) →
      parseKey opts rest = .ok (res, key) →
      parseKVLoop (fuel + 1) (tag :: rest) opts node = .error ⟨.Char, res⟩) ∧
    (∀ (fuel : Nat) (rest res : List Nat) (idx : Nat) (opts : KeyValueOptions)
        (node : KeyValue) (tag : Nat),
      opts.string_pool ≠ [] →
      tag ≠ (if opts.alt_format then 11 else 8) →
      le_u32 rest = .ok (res, idx) →
      opts.string_pool.length ≤ idx →
      parseKVLoop (fuel + 1) (tag :: rest) opts node = .error ⟨.Eof, res⟩) ∧
    (∀ (data : List Nat) (e : VdfrError), parse_keyvalues data = .error e →
      ∃ kind, e = .NomError kind) := by
  refine ⟨?_, ?_, ?_⟩
  · intro fuel rest res key opts node tag htag hend hkey
    simp only [List.mem_cons, List.not_mem_nil, or_false, not_or] at htag
    obtain ⟨h0, h1, h2, h3, h4, h5, h6, h7, h10⟩ := htag
    simp [parseKVLoop, le_u8, hkey, hend, h0, h1, h2, h3, h4, h5, h6, h7, h10]
  · intro fuel rest res idx opts node tag hpool hend hle hidx
    simp [parseKVLoop, le_u8, hend, parseKey, hpool, hle, hidx]
  · intro data e h
    unfold parse_keyvalues at h
    cases hb : parse_bytes_kv data KeyValueOptions.default with
    | error e2 =>
        rw [hb] at h
        injection h with h
        exact ⟨e2.kind, h.symm⟩
    | ok pr => rw [hb] at h; cases h

/-- Witness for C3: tag `0x0C` with the inline key `"a"` fails with a nom
`Char` error positioned after the key. -/
theorem claim_C3_witness :
    ((12 : Nat) ∉ ([0, 1, 2, 3, 4, 5, 6, 7, 10] : List Nat)) ∧
      parseKVLoop 1 [12, 97, 0] KeyValueOptions.default [] = .error ⟨.Char, []⟩ := by
  refine ⟨by decide, ?_⟩
  exact claim_C3.1 0 [97, 0] [] [97] KeyValueOptions.default [] 12 (by decide)
    (by decide) rfl

/-- Counterexample to C3 as stated: on tag `0x0C` the surfaced error is
`NomError`, not `InvalidType(0x0C)`. -/
theorem claim_C3_counterexample :
    parse_keyvalues [12, 97, 0] = .error (.NomError .Char) ∧
      VdfrError.NomError .Char ≠ .InvalidType 12 := ⟨rfl, by decide⟩

theorem le_u32_u32le (n : Nat) (t : List Nat) (h : n < 4294967296) :
    le_u32 (u32le n ++ t) = .ok (t, n) := by
  simp only [u32le, List.cons_append, List.nil_append, le_u32, Except.ok.injEq,
    Prod.mk.injEq]
  exact ⟨trivial, by omega⟩

theorem le_u64_u64le (n : Nat) (t : List Nat) (h : n < 18446744073709551616) :
    le_u64 (u64le n ++ t) = .ok (t, n) := by
  simp only [u64le, List.cons_append, List.nil_append, le_u64, Except.ok.injEq,
    Prod.mk.injEq]
  exact ⟨trivial, by omega⟩

theorem toI64_i64_as_usize (z : Int) (h1 : -9223372036854775808 ≤ z)
    (h2 : z < 9223372036854775808) : toI64 (i64_as_usize z) = z := by
  unfold toI64 i64_as_usize
  split <;> omega

theorem le_i64_i64le (z : Int) (t : List Nat) (h1 : -9223372036854775808 ≤ z)
    (h2 : z < 9223372036854775808) : le_i64 (i64le z ++ t) = .ok (t, z) := by
  have hn : i64_as_usize z < 18446744073709551616 := by
    unfold i64_as_usize
    omega
  unfold le_i64 i64le
  rw [le_u64_u64le _ t hn]
  simp only [toI64_i64_as_usize z h1 h2]

theorem i64_as_usize_lt16 (z : Int) (h1 : -9223372036854775808 ≤ z)
    (h2 : z < 9223372036854775808) :
    i64_as_usize z < 16 ↔ 0 ≤ z ∧ z < 16 := by
  unfold i64_as_usize
  omega

/-- Claim C10 (amended): for a version-29 header the loader computes the
payload split as `(pool_offset as usize) - 16`, a `usize` subtraction that
underflows (panics) exactly when the reinterpreted offset is 0..15.  A
NEGATIVE declared offset does not underflow: `offset as usize` maps it to a
value of at least 2^63, the oversized `take` fails, and `load` returns an
`Err` — so `load` is panic-free precisely when the offset is not in 0..15. -/
theorem claim_C10 (univ : Nat) (offset : Int) (rest : List Nat)
    (hu : univ < 4294967296)
    (h1 : -9223372036854775808 ≤ offset) (h2 : offset < 9223372036854775808) :
    (AppInfo.load
        (0x29 :: 0x44 :: 0x56 :: 0x07 :: (u32le univ ++ (i64le offset ++ rest))) =
      .panicked) ↔ (0 ≤ offset ∧ offset < 16) := by
  unfold AppInfo.load
  have hm : le_u32
      (0x29 :: 0x44 :: 0x56 :: 0x07 :: (u32le univ ++ (i64le offset ++ rest))) =
      .ok (u32le univ ++ (i64le offset ++ rest), MAGIC_29) := by
    simp [le_u32, MAGIC_29]
  simp only [hm, le_u32_u32le univ _ hu, le_i64_i64le offset _ h1 h2]
  rw [if_neg (by decide : ¬(MAGIC_29 = MAGIC_27 ∨ MAGIC_29 = MAGIC_28))]
  rw [if_pos trivial]
  by_cases hp : i64_as_usize offset < 16
  · rw [if_pos hp]
    constructor
    · intro _
      exact (i64_as_usize_lt16 offset h1 h2).mp hp
    · intro _
      rfl
  · rw [if_neg hp]
    have hrhs : ¬(0 ≤ offset ∧ offset < 16) := by
      intro hc
      exact hp ((i64_as_usize_lt16 offset h1 h2).mpr hc)
    constructor
    · intro hL
      exfalso
      cases h4 : takeN (i64_as_usize offset - 16) rest with
      | error e => rw [h4] at hL; cases hL
      | ok pr4 =>
          obtain ⟨sp, pl⟩ := pr4
          simp only [h4] at hL
          cases h5 : le_u32 sp with
          | error e => rw [h5] at hL; cases hL
          | ok pr5 =>
              obtain ⟨sp2, cnt⟩ := pr5
              simp only [h5] at hL
              cases h6 : read_string_pools cnt sp2 with
              | error e => rw [h6] at hL; cases hL
              | ok pr6 =>
                  obtain ⟨sp3, pool⟩ := pr6
                  simp only [h6] at hL
                  exact finishLoad_ne_panicked _ _ _ _ hL
    · intro hc
      exact absurd hc hrhs

/-- Witness for C10: declared pool offset 0 makes the subtraction underflow
and the load panic. -/
theorem claim_C10_witness :
    ((0 : Int) ≤ 0 ∧ (0 : Int) < 16) ∧
      AppInfo.load (0x29 :: 0x44 :: 0x56 :: 0x07 :: (u32le 1 ++ (i64le 0 ++ []))) =
        .panicked := by
  refine ⟨by norm_num, ?_⟩
  exact (claim_C10 1 0 [] (by norm_num) (by norm_num) (by norm_num)).mpr
    (by norm_num)

/-- Counterexample to C10 as stated: the negative offset -1 does NOT make
the load panic; it reinterprets to 2^64 - 1, the payload split fails, and
the result is `Err(NomError(Eof))`. -/
theorem claim_C10_counterexample :
    AppInfo.load ([0x29, 0x44, 0x56, 0x07, 1, 0, 0, 0] ++ List.replicate 8 255) =
      .err (.NomError .Eof) := rfl
